import Mathlib

/-!
Shallow embedding of the `skill-search` repository (Rust) in Lean 4, together
with theorems settling the specification claims about it.

Source files embedded:
  * `src/quality.rs`  — quality-score overlay (`QualityScores`, `normalize_slug`,
    `extract_slug_from_url`);
  * `src/db.rs`       — SQLite-backed store (`upsert_skill`, `update_stars`,
    `get_skill`, `get_skill_by_slug`, sync-state operations);
  * `src/github.rs`   — registry table, `sync_all_registries` failure isolation,
    `parse_skill_frontmatter`;
  * `src/index.rs`    — full-text search with optional registry filter;
  * `src/bin/safe-skill-search.rs` — the `Search` command's retrieval pipeline.

Rust strings are modelled as `List Char` where character-level processing
matters (the frontmatter parser), and as `String` elsewhere.  Effectful code
(SQLite, git, HTTP) is modelled by explicit state passing; fallible external
calls become `Except`/`Option` parameters.
-/

namespace SkillSearch

/- ### Character/list utilities mirroring Rust `str` primitives -/

/-- Rust `char::is_whitespace`, restricted to the ASCII whitespace characters
that occur in manifests. -/
def wsChar (c : Char) : Bool := c = ' ' || c = '\t' || c = '\n' || c = '\r'

/-- Strip all leading and trailing characters satisfying `p` (the common core
of Rust `str::trim` and `str::trim_matches`). -/
def trimBy (p : Char → Bool) (xs : List Char) : List Char :=
  (((xs.dropWhile p).reverse).dropWhile p).reverse

/-- Rust `str::trim`. -/
def trimL (xs : List Char) : List Char := trimBy wsChar xs

/-- Rust `str::trim_matches(c)`: removes every leading and every trailing
occurrence of `c`. -/
def trimMatchesL (c : Char) (xs : List Char) : List Char := trimBy (· == c) xs

/-- Rust `str::strip_prefix`. -/
def dropPre (p xs : List Char) : Option (List Char) :=
  if p.isPrefixOf xs then some (xs.drop p.length) else none

/-- Split a character list on a separator character (Rust `str::split(c)`).
The result is always non-empty, so extending the head via `headI`/`tail` is
exact. -/
def splitOnChar (c : Char) : List Char → List (List Char)
  | [] => [[]]
  | a :: t =>
    let r := splitOnChar c t
    if a = c then [] :: r else (a :: r.headI) :: r.tail

/-- Rust `str::lines()`: split on `'\n'`, drop one trailing empty line, strip a
trailing `'\r'` from each line. -/
def stripCR (l : List Char) : List Char :=
  if l.getLast? = some '\r' then l.dropLast else l

def linesOf (xs : List Char) : List (List Char) :=
  let parts := splitOnChar '\n' xs
  let parts := if parts.getLast? = some [] then parts.dropLast else parts
  parts.map stripCR

/-- Rust `str::find(pat)`: index of the first occurrence of `pat`. -/
def findSubstr (xs pat : List Char) : Option Nat :=
  match xs with
  | [] => if pat.isPrefixOf ([] : List Char) then some 0 else none
  | _ :: t =>
    if pat.isPrefixOf xs then some 0 else (findSubstr t pat).map (· + 1)

/- ### `src/quality.rs` — quality-score overlay -/

/-- `QualityEntry` from `src/quality.rs`. -/
structure QualityEntry where
  name : String
  registry : String
  score : Int
  stars : Int
  rationale : String
  url : String
  deriving Repr, DecidableEq, Inhabited

/-- The `HashMap<String, QualityEntry>` inside `QualityScores`, modelled by its
lookup function. -/
def QMap := String → Option QualityEntry

def qempty : QMap := fun _ => none

/-- `HashMap::insert`. -/
def qinsert (k : String) (v : QualityEntry) (m : QMap) : QMap :=
  fun k' => if k' = k then some v else m k'

/-- `normalize_slug` from `src/quality.rs`: lowercase, then keep only
alphanumeric characters, `'-'` and `'_'`. -/
def normalize_slug (s : String) : String :=
  ⟨(s.data.map Char.toLower).filter (fun c => c.isAlphanum || c == '-' || c == '_')⟩

/-- `extract_slug_from_url` from `src/quality.rs`: the last non-empty
`'/'`-separated segment of the url (empty if none). -/
def extract_slug_from_url (url : String) : String :=
  ⟨(((splitOnChar '/' url.data).reverse).find? (fun s => !s.isEmpty)).getD []⟩

/-- The primary lookup key built in `QualityScores::load`:
`format!("{}:{}", entry.registry, normalize_slug(&entry.name))`. -/
def entryKey (e : QualityEntry) : String :=
  e.registry ++ ":" ++ normalize_slug e.name

/-- The alternate lookup key built in `QualityScores::load`:
`format!("{}:{}", entry.registry, normalize_slug(&extract_slug_from_url(&entry.url)))`. -/
def entryAltKey (e : QualityEntry) : String :=
  e.registry ++ ":" ++ normalize_slug (extract_slug_from_url e.url)

/-- One iteration of the loop in `QualityScores::load`. -/
def loadStep (m : QMap) (e : QualityEntry) : QMap :=
  let m1 := qinsert (entryKey e) e m
  if entryAltKey e ≠ entryKey e then qinsert (entryAltKey e) e m1 else m1

/-- `QualityScores::load`, as a function of the decoded dataset entries. -/
def loadScores (entries : List QualityEntry) : QMap :=
  entries.foldl loadStep qempty

/-- `QualityScores::get_score`. -/
def get_score (m : QMap) (registry slug : String) : Option Int :=
  (m (registry ++ ":" ++ normalize_slug slug)).map (·.score)

/-- Whether an entry contributes key `k` to the table (under either the
normalized-name key or the normalized url-segment key). -/
def producesKey (e : QualityEntry) (k : String) : Bool :=
  entryKey e == k || entryAltKey e == k

/- ### `src/github.rs` — frontmatter parsing -/

/-- Value processing in `parse_skill_frontmatter`'s key/value loop:
`val.trim().trim_matches('"').trim_matches('\'')`. -/
def stripVal (v : List Char) : List Char :=
  trimMatchesL '\'' (trimMatchesL '"' (trimL v))

/-- The `for line in frontmatter.lines()` loop of `parse_skill_frontmatter`:
each recognized `key: value` line overwrites the corresponding accumulator
field. -/
def parseFMLines (ls : List (List Char)) :
    List Char × List Char × Option (List Char) :=
  ls.foldl
    (fun acc l =>
      let l := trimL l
      match dropPre "name:".data l with
      | some v => (stripVal v, acc.2.1, acc.2.2)
      | none =>
        match dropPre "description:".data l with
        | some v => (acc.1, stripVal v, acc.2.2)
        | none =>
          match dropPre "version:".data l with
          | some v => (acc.1, acc.2.1, some (stripVal v))
          | none => acc)
    ([], [], none)

/-- The frontmatter-block stage of `parse_skill_frontmatter`: if the content
starts with `---` and a further `---` occurs, parse the `key: value` lines
between them; otherwise every field stays at its default. -/
def parseFMBlock (content : List Char) :
    List Char × List Char × Option (List Char) :=
  if "---".data.isPrefixOf content then
    match findSubstr (content.drop 3) "---".data with
    | some i => parseFMLines (linesOf ((content.drop 3).take i))
    | none => ([], [], none)
  else ([], [], none)

/-- The heading-fallback loop of `parse_skill_frontmatter`: the trimmed text
after `"# "` of the first line that starts with `"# "`, empty if none. -/
def firstHeading (content : List Char) : List Char :=
  (((linesOf content).findSome? (fun l => dropPre "# ".data l)).map trimL).getD []

/-- `parse_skill_frontmatter` from `src/github.rs`, returning
`(name, description, version)`. -/
def parse_skill_frontmatter (content : List Char) :
    List Char × List Char × Option (List Char) :=
  let r := parseFMBlock content
  if r.1 = [] then (firstHeading content, r.2.1, r.2.2) else r

/-- Whether `parse_skill_frontmatter` finds a frontmatter block in `content`
(the condition guarding its block-parsing stage). -/
def hasBlockB (content : List Char) : Bool :=
  "---".data.isPrefixOf content && (findSubstr (content.drop 3) "---".data).isSome

/- ### `src/db.rs` — the Store -/

/-- A row of the `skills` table (struct `Skill` in `src/db.rs`). -/
structure Skill where
  id : Int
  slug : String
  name : String
  registry : String
  description : String
  skill_md : String
  github_url : String
  version : Option String
  stars : Int
  trusted : Bool
  updated_at : Int
  deriving Repr, DecidableEq, Inhabited

/-- Database state: the `skills` rows in rowid order, the rowid counter, and
the `sync_state` table. -/
structure DB where
  rows : List Skill
  nextId : Int
  sync : List (String × Int × Option String)
  deriving Repr, DecidableEq

def emptyDB : DB := { rows := [], nextId := 1, sync := [] }

/-- Does row `r` have key `(registry, slug)`? (`UNIQUE(registry, slug)`). -/
def keyMatch (r : Skill) (registry slug : String) : Bool :=
  r.registry == registry && r.slug == slug

/-- Replace every mutable field of `r` with `s`'s values, as the
`ON CONFLICT(registry, slug) DO UPDATE SET` clause of `upsert_skill` does;
`id`, `registry` and `slug` are untouched. -/
def replaceMut (r s : Skill) : Skill :=
  { r with
    name := s.name
    description := s.description
    skill_md := s.skill_md
    github_url := s.github_url
    version := s.version
    stars := s.stars
    trusted := s.trusted
    updated_at := s.updated_at }

/-- `Database::upsert_skill`: insert a fresh row when the `(registry, slug)`
key is absent, otherwise update the conflicting row's mutable fields. -/
def upsert_skill (db : DB) (s : Skill) : DB :=
  if db.rows.any (fun r => keyMatch r s.registry s.slug) then
    { db with
      rows := db.rows.map
        (fun r => if keyMatch r s.registry s.slug then replaceMut r s else r) }
  else
    { db with
      rows := db.rows ++ [{ s with id := db.nextId }]
      nextId := db.nextId + 1 }

/-- `Database::update_stars`: set `stars` on the rows matching
`(registry, slug)`, touching nothing else. -/
def update_stars (db : DB) (registry slug : String) (stars : Int) : DB :=
  { db with
    rows := db.rows.map
      (fun r => if keyMatch r registry slug then { r with stars := stars } else r) }

/-- `Database::set_last_sync` (`INSERT OR REPLACE` keyed on `registry`). -/
def set_last_sync (db : DB) (registry : String) (ts : Int)
    (etag : Option String) : DB :=
  { db with
    sync := (db.sync.filter (fun e => e.1 ≠ registry)) ++ [(registry, ts, etag)] }

/-- `Database::clear_sync_state` (`DELETE FROM sync_state`). -/
def clear_sync_state (db : DB) : DB := { db with sync := [] }

/-- `Database::get_skill`: `SELECT ... WHERE registry = ? AND slug = ? LIMIT 1`.
Rows are kept in rowid order, so the first match is returned. -/
def get_skill (db : DB) (registry slug : String) : Option Skill :=
  db.rows.find? (fun r => keyMatch r registry slug)

/-- `Database::get_skill_by_slug`: `SELECT ... WHERE slug = ? LIMIT 1`.
SQLite serves this query through the `idx_skills_slug` index, whose entries
are ordered by `(slug, rowid)`, so the matching row with the smallest rowid is
produced; the model keeps `rows` in rowid order and takes the first match. -/
def get_skill_by_slug (db : DB) (slug : String) : Option Skill :=
  db.rows.find? (fun r => r.slug == slug)

/-- `Database::needs_initial_sync`: `COUNT(*) = 0`. -/
def needs_initial_sync (db : DB) : Bool := db.rows.isEmpty

/-- The Store mutators named by the spec's reachability claim. -/
inductive Op where
  | upsert (s : Skill)
  | updStars (registry slug : String) (stars : Int)
  | setSync (registry : String) (ts : Int) (etag : Option String)
  | clearSync
  deriving Repr

def applyOp (db : DB) : Op → DB
  | Op.upsert s => upsert_skill db s
  | Op.updStars registry slug stars => update_stars db registry slug stars
  | Op.setSync registry ts etag => set_last_sync db registry ts etag
  | Op.clearSync => clear_sync_state db

/-- The Store state after a sequence of operations on an initially empty
database. -/
def applyOps (ops : List Op) : DB := ops.foldl applyOp emptyDB

/-- The `UNIQUE(registry, slug)` invariant. -/
def keysUnique (rows : List Skill) : Prop :=
  rows.Pairwise (fun a b => ¬ (a.registry = b.registry ∧ a.slug = b.slug))

/-- Rows are in strictly increasing rowid order and below the rowid counter. -/
def idsOrdered (db : DB) : Prop :=
  db.rows.Pairwise (fun a b => a.id < b.id) ∧ ∀ r ∈ db.rows, r.id < db.nextId

/- ### `src/index.rs` — the full-text index -/

/-- One indexed document, as written by `SearchIndex::rebuild`: the stored
(retrievable) fields plus the tokenized-only `content` field. -/
structure Doc where
  slug : String
  name : String
  description : String
  registry : String
  content : String
  deriving Repr, DecidableEq

/-- Struct `SearchResult` from `src/index.rs`.  Tantivy's `f32` relevance
score is modelled abstractly by an integer. -/
structure SearchResult where
  slug : String
  name : String
  description : String
  registry : String
  score : Int
  deriving Repr, DecidableEq

/-- The `TermQuery` on the raw (untokenized) `registry` field: it matches a
document exactly when the stored registry equals the query term. -/
def termMatchRegistry (reg : String) (d : Doc) : Bool := d.registry == reg

/-- The query evaluated by `SearchIndex::search`: the parsed free-text query
alone, or — when a registry filter is supplied — the `BooleanQuery` with both
the text query and the registry `TermQuery` as `Occur::Must` clauses. -/
def finalQuery (textq : Doc → Bool) (registry : Option String) : Doc → Bool :=
  match registry with
  | some reg => fun d => textq d && termMatchRegistry reg d
  | none => textq

/-- Insert a document into a score-sorted list (descending). -/
def insertRanked (scoreOf : Doc → Int) (d : Doc) : List Doc → List Doc
  | [] => [d]
  | x :: xs =>
    if scoreOf x < scoreOf d then d :: x :: xs else x :: insertRanked scoreOf d xs

/-- `TopDocs`-style ranking: sort matching documents by relevance score,
descending. -/
def rankDocs (scoreOf : Doc → Int) (l : List Doc) : List Doc :=
  l.foldr (insertRanked scoreOf) []

/-- `SearchIndex::search`: evaluate the (possibly registry-filtered) query over
the indexed documents, rank by score, truncate to `limit`, and read the stored
fields of each hit back into a `SearchResult`.  The text query and the scoring
function are abstract parameters standing for tantivy's query parser and BM25
scorer. -/
def searchEval (docs : List Doc) (textq : Doc → Bool) (scoreOf : Doc → Int)
    (limit : Nat) (registry : Option String) : List SearchResult :=
  let hits := docs.filter (finalQuery textq registry)
  ((rankDocs scoreOf hits).take limit).map
    (fun d =>
      { slug := d.slug
        name := d.name
        description := d.description
        registry := d.registry
        score := scoreOf d })

/- ### `src/github.rs` — registries and sync orchestration -/

/-- Struct `Registry` from `src/github.rs`. -/
structure Registry where
  name : String
  repo_url : String
  skills_path : String
  trusted : Bool
  deriving Repr, DecidableEq

/-- The `REGISTRIES` constant from `src/github.rs`. -/
def REGISTRIES : List Registry :=
  [ { name := "clawdhub"
      repo_url := "https://github.com/openclaw/skills.git"
      skills_path := "skills"
      trusted := false }
  , { name := "anthropic"
      repo_url := "https://github.com/anthropics/skills.git"
      skills_path := "skills"
      trusted := true }
  , { name := "openai"
      repo_url := "https://github.com/openai/skills.git"
      skills_path := "skills/.curated"
      trusted := true }
  , { name := "openai-experimental"
      repo_url := "https://github.com/openai/skills.git"
      skills_path := "skills/.experimental"
      trusted := false } ]

/-- One iteration of the registry loop in `sync_all_registries`: the registry
is attempted; on failure a warning is recorded and the loop continues. -/
def syncOneStep (outcome : Registry → Except String Unit)
    (acc : List String × List String) (reg : Registry) :
    List String × List String :=
  match outcome reg with
  | Except.ok _ => (acc.1 ++ [reg.name], acc.2)
  | Except.error e => (acc.1 ++ [reg.name], acc.2 ++ [reg.name ++ ": " ++ e])

/-- `sync_all_registries`, with its effects abstracted: `dirResult` is the
initial `create_dir_all`, `outcome` gives each per-registry `sync_registry`
result, `starsResult` the `fetch_clawdhub_stars` result.  Returns the names of
the registries attempted (in order) and the warnings logged. -/
def sync_all_registries (dirResult : Except String Unit)
    (outcome : Registry → Except String Unit)
    (starsResult : Except String Unit) :
    Except String (List String × List String) :=
  match dirResult with
  | Except.error e => Except.error e
  | Except.ok _ =>
    let acc := REGISTRIES.foldl (syncOneStep outcome) ([], [])
    let warns :=
      match starsResult with
      | Except.ok _ => acc.2
      | Except.error e => acc.2 ++ ["clawdhub stars: " ++ e]
    Except.ok (acc.1, warns)

/- ### `src/bin/safe-skill-search.rs` — the Search command -/

/-- One enriched result object, as assembled by the `Commands::Search` arm
(the fields of its `serde_json::json!` object). -/
structure Enriched where
  slug : String
  name : String
  registry : String
  description : String
  github_url : String
  stars : Int
  trusted : Bool
  search_score : Int
  quality_score : Int
  deriving Repr, DecidableEq

/-- The quality lookup performed at retrieval time: slug lookup first, name
fallback, defaulting to `0`
(`get_score(registry, slug).or_else(|| get_score(registry, name)).unwrap_or(0)`). -/
def retrievalQuality (qs : QMap) (registry slug name : String) : Int :=
  ((get_score qs registry slug).orElse (fun _ => get_score qs registry name)).getD 0

/-- The enrichment closure of the `Commands::Search` arm: fetch the Skill
record by `(registry, slug)` (dropping the candidate when absent) and attach
the quality score. -/
def enrich (db : DB) (qs : QMap) (r : SearchResult) : Option Enriched :=
  (get_skill db r.registry r.slug).map
    (fun s =>
      { slug := s.slug
        name := s.name
        registry := s.registry
        description := s.description
        github_url := s.github_url
        stars := s.stars
        trusted := s.trusted
        search_score := r.score
        quality_score := retrievalQuality qs s.registry s.slug s.name })

/-- The `Commands::Search` retrieval pipeline: request `limit * 4` candidates
from the index, enrich (dropping vanished records), filter by trust, filter by
minimum quality score, truncate to `limit`.  `idx` stands for
`search_index.search`. -/
def searchCommand (idx : String → Nat → Option String → List SearchResult)
    (db : DB) (qs : QMap) (query : String) (limit : Nat)
    (registry : Option String) (trustedOnly : Bool) (minScore : Int) :
    List Enriched :=
  let results := idx query (limit * 4) registry
  ((((results.filterMap (enrich db qs)).filter
      (fun e => !trustedOnly || e.trusted)).filter
      (fun e => minScore ≤ e.quality_score)).take limit)

/- ### Helper lemmas: trimming -/

lemma dropWhile_eq_self_of_head {p : Char → Bool} {l : List Char}
    (h : ∀ c, l.head? = some c → p c = false) : l.dropWhile p = l := by
  cases l with
  | nil => rfl
  | cons a t => simp [List.dropWhile_cons, h a rfl]

lemma trimBy_eq_self {p : Char → Bool} {l : List Char}
    (h1 : ∀ c, l.head? = some c → p c = false)
    (h2 : ∀ c, l.getLast? = some c → p c = false) : trimBy p l = l := by
  unfold trimBy
  rw [dropWhile_eq_self_of_head h1]
  rw [dropWhile_eq_self_of_head (by simpa [List.head?_reverse] using h2)]
  exact l.reverse_reverse

lemma trimBy_cons_pos {p : Char → Bool} {a : Char} (l : List Char)
    (h : p a = true) : trimBy p (a :: l) = trimBy p l := by
  unfold trimBy
  rw [List.dropWhile_cons, if_pos h]

lemma trimBy_concat_pos {p : Char → Bool} {a : Char} (l : List Char)
    (h : p a = true) : trimBy p (l ++ [a]) = trimBy p l := by
  unfold trimBy
  rw [List.dropWhile_append]
  by_cases he : (l.dropWhile p).isEmpty = true
  · rw [if_pos he]
    simp only [List.dropWhile_cons, h, if_true, List.dropWhile_nil]
    simp only [List.isEmpty_iff] at he
    simp [he]
  · rw [if_neg he]
    rw [List.reverse_append]
    simp only [List.reverse_cons, List.reverse_nil, List.nil_append,
      List.singleton_append, List.dropWhile_cons, h, if_true]

/- ### Helper lemmas: splitting and lines -/

lemma splitOnChar_nil (c : Char) : splitOnChar c [] = [[]] := rfl

lemma splitOnChar_cons (c a : Char) (t : List Char) :
    splitOnChar c (a :: t) =
      if a = c then [] :: splitOnChar c t
      else (a :: (splitOnChar c t).headI) :: (splitOnChar c t).tail := rfl

lemma splitOnChar_ne_nil (c : Char) (l : List Char) : splitOnChar c l ≠ [] := by
  cases l with
  | nil => simp [splitOnChar_nil]
  | cons a t => rw [splitOnChar_cons]; split <;> simp

lemma splitOnChar_append_cons (c : Char) (xs ys : List Char) :
    splitOnChar c (xs ++ c :: ys) = splitOnChar c xs ++ splitOnChar c ys := by
  induction xs with
  | nil =>
    simp only [List.nil_append]
    rw [splitOnChar_cons, if_pos rfl, splitOnChar_nil]
    rfl
  | cons a xs ih =>
    simp only [List.cons_append]
    rw [splitOnChar_cons, ih, splitOnChar_cons]
    cases hxs : splitOnChar c xs with
    | nil => exact absurd hxs (splitOnChar_ne_nil c xs)
    | cons h r =>
      by_cases hac : a = c
      · simp [hac]
      · simp [hac]

lemma splitOnChar_no_sep {c : Char} {l : List Char}
    (h : ∀ x ∈ l, x ≠ c) : splitOnChar c l = [l] := by
  induction l with
  | nil => rfl
  | cons a t ih =>
    rw [splitOnChar_cons, ih (fun x hx => h x (List.mem_cons_of_mem a hx))]
    have hac : a ≠ c := h a (List.mem_cons_self a t)
    simp [hac]

/- ### Helper lemmas: substring search -/

lemma isPrefixOf_append_self (pat b : List Char) :
    pat.isPrefixOf (pat ++ b) = true := by
  rw [List.isPrefixOf_iff_prefix]
  exact List.prefix_append pat b

lemma findSubstr_boundary (a pat b : List Char) (hpat : pat ≠ [])
    (h : ∀ x ∈ a, pat.head? ≠ some x) :
    findSubstr (a ++ (pat ++ b)) pat = some a.length := by
  induction a with
  | nil =>
    cases pat with
    | nil => exact absurd rfl hpat
    | cons p pt =>
      have hpre : (p :: pt).isPrefixOf (p :: (pt ++ b)) = true := by
        have := isPrefixOf_append_self (p :: pt) b
        simp only [List.cons_append] at this
        exact this
      simp only [List.nil_append, List.cons_append]
      unfold findSubstr
      simp [hpre]
  | cons x a ih =>
    have hx : pat.head? ≠ some x := h x (List.mem_cons_self x a)
    simp only [List.cons_append]
    unfold findSubstr
    have hnp : pat.isPrefixOf (x :: (a ++ (pat ++ b))) = false := by
      cases pat with
      | nil => exact absurd rfl hpat
      | cons p pt =>
        simp only [List.isPrefixOf_cons₂]
        have : ¬ p = x := by
          intro hpx
          exact hx (by simp [hpx])
        simp [this]
    rw [hnp]
    simp only [Bool.false_eq_true, if_false]
    rw [ih (fun y hy => h y (List.mem_cons_of_mem x hy))]
    simp [List.length_cons]

/- ### Helper lemmas: the quality table -/

lemma qinsert_lookup (k k' : String) (v : QualityEntry) (m : QMap) :
    qinsert k v m k' = if k' = k then some v else m k' := rfl

lemma producesKey_iff {e : QualityEntry} {k : String} :
    producesKey e k = true ↔ (entryKey e = k ∨ entryAltKey e = k) := by
  simp [producesKey, beq_iff_eq]

lemma loadStep_lookup (m : QMap) (e : QualityEntry) (k : String) :
    loadStep m e k = if producesKey e k then some e else m k := by
  by_cases hp : producesKey e k = true
  · rw [if_pos hp]
    rcases producesKey_iff.mp hp with h | h
    · unfold loadStep qinsert
      by_cases halt : entryAltKey e ≠ entryKey e
      · rw [if_pos halt]
        by_cases h1 : k = entryAltKey e
        · simp [h1]
        · simp [h1, h.symm]
      · rw [if_neg halt]
        simp [h.symm]
    · unfold loadStep qinsert
      by_cases halt : entryAltKey e ≠ entryKey e
      · rw [if_pos halt]
        simp [h.symm]
      · push_neg at halt
        rw [if_neg (by simp [halt])]
        simp [halt] at h
        simp [h.symm]
  · rw [if_neg hp]
    have hk : entryKey e ≠ k := by
      intro hh; exact hp (producesKey_iff.mpr (Or.inl hh))
    have ha : entryAltKey e ≠ k := by
      intro hh; exact hp (producesKey_iff.mpr (Or.inr hh))
    unfold loadStep qinsert
    by_cases halt : entryAltKey e ≠ entryKey e
    · rw [if_pos halt]
      simp [Ne.symm ha, Ne.symm hk]
    · rw [if_neg halt]
      simp [Ne.symm hk]

lemma foldl_loadStep_no_producer {k : String} (bs : List QualityEntry)
    (m : QMap) (h : ∀ x ∈ bs, producesKey x k = false) :
    bs.foldl loadStep m k = m k := by
  induction bs generalizing m with
  | nil => rfl
  | cons e bs ih =>
    simp only [List.foldl_cons]
    rw [ih (loadStep m e) (fun x hx => h x (List.mem_cons_of_mem e hx))]
    rw [loadStep_lookup, h e (List.mem_cons_self e bs)]
    simp

/- ### Helper lemmas: the Store invariant -/

lemma keyMatch_replaceMut (r s : Skill) (registry slug : String) :
    keyMatch (replaceMut r s) registry slug = keyMatch r registry slug := rfl

lemma keyMatch_setStars (r : Skill) (n : Int) (registry slug : String) :
    keyMatch { r with stars := n } registry slug = keyMatch r registry slug := rfl

lemma keyMatch_iff {r : Skill} {registry slug : String} :
    keyMatch r registry slug = true ↔ (r.registry = registry ∧ r.slug = slug) := by
  simp [keyMatch]

/-- The conditional updater of `upsert_skill`'s conflict branch. -/
def updIf (s : Skill) (r : Skill) : Skill :=
  if keyMatch r s.registry s.slug then replaceMut r s else r

lemma updIf_registry (s r : Skill) : (updIf s r).registry = r.registry := by
  unfold updIf replaceMut; split <;> rfl

lemma updIf_slug (s r : Skill) : (updIf s r).slug = r.slug := by
  unfold updIf replaceMut; split <;> rfl

lemma updIf_id (s r : Skill) : (updIf s r).id = r.id := by
  unfold updIf replaceMut; split <;> rfl

/-- The conditional updater of `update_stars`. -/
def starsIf (registry slug : String) (n : Int) (r : Skill) : Skill :=
  if keyMatch r registry slug then { r with stars := n } else r

lemma starsIf_registry (registry slug : String) (n : Int) (r : Skill) :
    (starsIf registry slug n r).registry = r.registry := by
  unfold starsIf; split <;> rfl

lemma starsIf_slug (registry slug : String) (n : Int) (r : Skill) :
    (starsIf registry slug n r).slug = r.slug := by
  unfold starsIf; split <;> rfl

lemma starsIf_id (registry slug : String) (n : Int) (r : Skill) :
    (starsIf registry slug n r).id = r.id := by
  unfold starsIf; split <;> rfl

lemma upsert_rows (db : DB) (s : Skill) :
    (upsert_skill db s).rows =
      if db.rows.any (fun r => keyMatch r s.registry s.slug) then
        db.rows.map (updIf s)
      else db.rows ++ [{ s with id := db.nextId }] := by
  unfold upsert_skill updIf
  split <;> rfl

lemma update_stars_rows (db : DB) (registry slug : String) (n : Int) :
    (update_stars db registry slug n).rows = db.rows.map (starsIf registry slug n) := rfl

/-- The full Store invariant: unique `(registry, slug)` keys, strictly
increasing rowids, rowids below the counter. -/
def dbInv (db : DB) : Prop := keysUnique db.rows ∧ idsOrdered db

lemma dbInv_empty : dbInv emptyDB := by
  constructor
  · exact List.Pairwise.nil
  · exact ⟨List.Pairwise.nil, by intro r hr; cases hr⟩

lemma upsert_nextId (db : DB) (s : Skill) :
    (upsert_skill db s).nextId =
      if db.rows.any (fun r => keyMatch r s.registry s.slug) then db.nextId
      else db.nextId + 1 := by
  unfold upsert_skill
  split <;> rfl

lemma dbInv_upsert {db : DB} (s : Skill) (h : dbInv db) : dbInv (upsert_skill db s) := by
  obtain ⟨hu, hp, hn⟩ := h
  by_cases hany : db.rows.any (fun r => keyMatch r s.registry s.slug) = true
  · have hrows : (upsert_skill db s).rows = db.rows.map (updIf s) := by
      rw [upsert_rows, if_pos hany]
    have hnext : (upsert_skill db s).nextId = db.nextId := by
      rw [upsert_nextId, if_pos hany]
    refine ⟨?_, ?_, ?_⟩
    · rw [keysUnique, hrows]
      exact hu.map (updIf s) (fun a b hab => by
        rw [updIf_registry, updIf_slug, updIf_registry, updIf_slug]
        exact hab)
    · rw [hrows]
      exact hp.map (updIf s) (fun a b hab => by rw [updIf_id, updIf_id]; exact hab)
    · intro r hr
      rw [hrows] at hr
      rw [hnext]
      obtain ⟨r0, hr0, rfl⟩ := List.mem_map.mp hr
      rw [updIf_id]
      exact hn r0 hr0
  · have hrows : (upsert_skill db s).rows = db.rows ++ [{ s with id := db.nextId }] := by
      rw [upsert_rows, if_neg hany]
    have hnext : (upsert_skill db s).nextId = db.nextId + 1 := by
      rw [upsert_nextId, if_neg hany]
    have habs : ∀ r ∈ db.rows, keyMatch r s.registry s.slug = false := by
      intro r hr
      by_contra hc
      exact hany (List.any_eq_true.mpr ⟨r, hr, by simpa using hc⟩)
    refine ⟨?_, ?_, ?_⟩
    · rw [keysUnique, hrows, List.pairwise_append]
      refine ⟨hu, List.pairwise_singleton _ _, ?_⟩
      intro a ha b hb
      simp only [List.mem_singleton] at hb
      subst hb
      intro hcon
      have hkm : keyMatch a s.registry s.slug = true := keyMatch_iff.mpr ⟨hcon.1, hcon.2⟩
      rw [habs a ha] at hkm
      exact Bool.false_ne_true hkm
    · rw [hrows, List.pairwise_append]
      refine ⟨hp, List.pairwise_singleton _ _, ?_⟩
      intro a ha b hb
      simp only [List.mem_singleton] at hb
      subst hb
      exact hn a ha
    · intro r hr
      rw [hrows] at hr
      rw [hnext]
      rcases List.mem_append.mp hr with hmem | hmem
      · have := hn r hmem; omega
      · simp only [List.mem_singleton] at hmem
        subst hmem
        simp

lemma dbInv_update_stars {db : DB} (registry slug : String) (n : Int)
    (h : dbInv db) : dbInv (update_stars db registry slug n) := by
  obtain ⟨hu, hp, hn⟩ := h
  have hrows : (update_stars db registry slug n).rows =
      db.rows.map (starsIf registry slug n) := rfl
  have hnext : (update_stars db registry slug n).nextId = db.nextId := rfl
  refine ⟨?_, ?_, ?_⟩
  · rw [keysUnique, hrows]
    exact hu.map (starsIf registry slug n) (fun a b hab => by
      rw [starsIf_registry, starsIf_slug, starsIf_registry, starsIf_slug]
      exact hab)
  · rw [hrows]
    exact hp.map (starsIf registry slug n)
      (fun a b hab => by rw [starsIf_id, starsIf_id]; exact hab)
  · intro r hr
    rw [hrows] at hr
    rw [hnext]
    obtain ⟨r0, hr0, rfl⟩ := List.mem_map.mp hr
    rw [starsIf_id]
    exact hn r0 hr0

lemma dbInv_applyOp {db : DB} (op : Op) (h : dbInv db) : dbInv (applyOp db op) := by
  cases op with
  | upsert s => exact dbInv_upsert s h
  | updStars registry slug n => exact dbInv_update_stars registry slug n h
  | setSync registry ts etag => exact h
  | clearSync => exact h

lemma dbInv_applyOps (ops : List Op) : dbInv (applyOps ops) := by
  have : ∀ (l : List Op) (db : DB), dbInv db → dbInv (l.foldl applyOp db) := by
    intro l
    induction l with
    | nil => intro db h; exact h
    | cons op l ih => intro db h; exact ih (applyOp db op) (dbInv_applyOp op h)
  exact this ops emptyDB dbInv_empty

/- ### Helper lemmas: first-match lookups -/

lemma find?_first_min_id {p : Skill → Bool} {l : List Skill}
    (hsort : l.Pairwise (fun a b => a.id < b.id))
    (hex : ∃ r ∈ l, p r = true) :
    ∃ row, l.find? p = some row ∧ p row = true ∧
      ∀ r ∈ l, p r = true → row.id ≤ r.id := by
  induction l with
  | nil => obtain ⟨r, hr, _⟩ := hex; cases hr
  | cons a t ih =>
    by_cases hpa : p a = true
    · refine ⟨a, by simp [List.find?_cons, hpa], hpa, ?_⟩
      intro r hr hpr
      rcases List.mem_cons.mp hr with rfl | hmem
      · exact le_refl _
      · exact le_of_lt ((List.pairwise_cons.mp hsort).1 r hmem)
    · have hex' : ∃ r ∈ t, p r = true := by
        obtain ⟨r, hr, hpr⟩ := hex
        rcases List.mem_cons.mp hr with rfl | hmem
        · exact absurd hpr hpa
        · exact ⟨r, hmem, hpr⟩
      obtain ⟨row, hfind, hprow, hmin⟩ := ih (List.pairwise_cons.mp hsort).2 hex'
      refine ⟨row, ?_, hprow, ?_⟩
      · simp [List.find?_cons, hpa, hfind]
      · intro r hr hpr
        rcases List.mem_cons.mp hr with rfl | hmem
        · exact absurd hpr hpa
        · exact hmin r hmem hpr

/-- `find?` commutes with a map that preserves the predicate. -/
lemma find?_map_pres {f : Skill → Skill} {p : Skill → Bool} {l : List Skill}
    (hf : ∀ r, p (f r) = p r) :
    (l.map f).find? p = (l.find? p).map f := by
  induction l with
  | nil => rfl
  | cons a t ih =>
    simp only [List.map_cons, List.find?_cons, hf a]
    by_cases hpa : p a = true
    · simp [hpa]
    · simp only [Bool.not_eq_true] at hpa
      simp [hpa, ih]

lemma countP_le_one_of_keysUnique {l : List Skill} {registry slug : String}
    (hu : keysUnique l) :
    l.countP (fun r => keyMatch r registry slug) ≤ 1 := by
  induction l with
  | nil => simp
  | cons a t ih =>
    rw [List.countP_cons]
    by_cases hpa : keyMatch a registry slug = true
    · have hzero : t.countP (fun r => keyMatch r registry slug) = 0 := by
        rw [List.countP_eq_zero]
        intro b hb hpb
        obtain ⟨ha1, ha2⟩ := keyMatch_iff.mp hpa
        obtain ⟨hb1, hb2⟩ := keyMatch_iff.mp hpb
        exact (List.pairwise_cons.mp hu).1 b hb ⟨ha1.trans hb1.symm, ha2.trans hb2.symm⟩
      simp [hpa, hzero]
    · simp only [Bool.not_eq_true] at hpa
      simp only [hpa, if_false]
      simpa using ih (List.pairwise_cons.mp hu).2

/- ### Helper lemmas: upsert contract -/

/-- The spec's notion of "all mutable fields carry `s`'s values". -/
def mutFieldsEq (r s : Skill) : Prop :=
  r.name = s.name ∧ r.description = s.description ∧ r.skill_md = s.skill_md ∧
  r.github_url = s.github_url ∧ r.version = s.version ∧ r.stars = s.stars ∧
  r.trusted = s.trusted ∧ r.updated_at = s.updated_at

lemma mutFieldsEq_replaceMut (r s : Skill) : mutFieldsEq (replaceMut r s) s :=
  ⟨rfl, rfl, rfl, rfl, rfl, rfl, rfl, rfl⟩

lemma replaceMut_eq_self {r s : Skill} (h : mutFieldsEq r s) : replaceMut r s = r := by
  obtain ⟨h1, h2, h3, h4, h5, h6, h7, h8⟩ := h
  cases r
  simp only [replaceMut] at *
  simp_all

lemma replaceMut_idem (r s : Skill) : replaceMut (replaceMut r s) s = replaceMut r s := rfl

lemma keyMatch_updIf (s r : Skill) (registry slug : String) :
    keyMatch (updIf s r) registry slug = keyMatch r registry slug := by
  unfold updIf
  split <;> rfl

lemma keyMatch_self_key (s : Skill) (n : Int) :
    keyMatch { s with id := n } s.registry s.slug = true := by
  simp [keyMatch]

/-- Every row of an upserted store that matches `s`'s key already carries `s`'s
mutable field values. -/
lemma upsert_rows_mut (db : DB) (s : Skill) :
    ∀ x ∈ (upsert_skill db s).rows,
      keyMatch x s.registry s.slug = true → mutFieldsEq x s := by
  intro x hx hkm
  rw [upsert_rows] at hx
  by_cases hany : db.rows.any (fun r => keyMatch r s.registry s.slug) = true
  · rw [if_pos hany] at hx
    obtain ⟨r0, _, rfl⟩ := List.mem_map.mp hx
    unfold updIf at hkm ⊢
    by_cases hk : keyMatch r0 s.registry s.slug = true
    · rw [if_pos hk]
      exact mutFieldsEq_replaceMut r0 s
    · rw [if_neg hk] at hkm
      exact absurd hkm hk
  · rw [if_neg hany] at hx
    rcases List.mem_append.mp hx with hmem | hmem
    · exfalso
      exact hany (List.any_eq_true.mpr ⟨x, hmem, by simpa using hkm⟩)
    · simp only [List.mem_singleton] at hmem
      subst hmem
      exact ⟨rfl, rfl, rfl, rfl, rfl, rfl, rfl, rfl⟩

/-- After any upsert of `s`, the key of `s` is present. -/
lemma upsert_hasKey (db : DB) (s : Skill) :
    (upsert_skill db s).rows.any (fun r => keyMatch r s.registry s.slug) = true := by
  rw [upsert_rows]
  by_cases hany : db.rows.any (fun r => keyMatch r s.registry s.slug) = true
  · rw [if_pos hany]
    obtain ⟨r, hr, hkm⟩ := List.any_eq_true.mp hany
    refine List.any_eq_true.mpr ⟨updIf s r, List.mem_map_of_mem (updIf s) hr, ?_⟩
    rw [keyMatch_updIf]
    exact hkm
  · rw [if_neg hany]
    refine List.any_eq_true.mpr ⟨{ s with id := db.nextId }, ?_, ?_⟩
    · exact List.mem_append_right _ (List.mem_singleton_self _)
    · simp [keyMatch_self_key]

lemma countP_map_pres {f : Skill → Skill} {p : Skill → Bool} (l : List Skill)
    (hf : ∀ r, p (f r) = p r) : (l.map f).countP p = l.countP p := by
  induction l with
  | nil => rfl
  | cons a t ih => simp [List.countP_cons, hf a, ih]

/-- `upsert_skill` preserves key uniqueness on its own. -/
lemma keysUnique_upsert {db : DB} (s : Skill) (hu : keysUnique db.rows) :
    keysUnique (upsert_skill db s).rows := by
  rw [keysUnique, upsert_rows]
  by_cases hany : db.rows.any (fun r => keyMatch r s.registry s.slug) = true
  · rw [if_pos hany]
    exact hu.map (updIf s) (fun a b hab => by
      rw [updIf_registry, updIf_slug, updIf_registry, updIf_slug]
      exact hab)
  · rw [if_neg hany]
    have habs : ∀ r ∈ db.rows, keyMatch r s.registry s.slug = false := by
      intro r hr
      by_contra hc
      exact hany (List.any_eq_true.mpr ⟨r, hr, by simpa using hc⟩)
    rw [List.pairwise_append]
    refine ⟨hu, List.pairwise_singleton _ _, ?_⟩
    intro a ha b hb
    simp only [List.mem_singleton] at hb
    subst hb
    intro hcon
    have hkm : keyMatch a s.registry s.slug = true := keyMatch_iff.mpr ⟨hcon.1, hcon.2⟩
    rw [habs a ha] at hkm
    exact Bool.false_ne_true hkm

/-- After an upsert of `s`, exactly one row carries `s`'s key. -/
lemma upsert_countP_one {db : DB} (s : Skill) (hu : keysUnique db.rows) :
    (upsert_skill db s).rows.countP (fun r => keyMatch r s.registry s.slug) = 1 := by
  have hle : (upsert_skill db s).rows.countP (fun r => keyMatch r s.registry s.slug) ≤ 1 :=
    countP_le_one_of_keysUnique (keysUnique_upsert s hu)
  have hpos : 0 < (upsert_skill db s).rows.countP (fun r => keyMatch r s.registry s.slug) := by
    rw [List.countP_pos_iff]
    obtain ⟨r, hr, hkm⟩ := List.any_eq_true.mp (upsert_hasKey db s)
    exact ⟨r, hr, hkm⟩
  omega

/-- A second upsert of the same `Skill` value leaves the rows unchanged. -/
lemma upsert_idem (db : DB) (s : Skill) :
    (upsert_skill (upsert_skill db s) s).rows = (upsert_skill db s).rows := by
  have hany2 := upsert_hasKey db s
  rw [upsert_rows, if_pos hany2]
  have hid : ∀ x ∈ (upsert_skill db s).rows, updIf s x = x := by
    intro x hx
    unfold updIf
    by_cases hk : keyMatch x s.registry s.slug = true
    · rw [if_pos hk]
      exact replaceMut_eq_self (upsert_rows_mut db s x hx hk)
    · rw [if_neg hk]
  calc (upsert_skill db s).rows.map (updIf s)
      = (upsert_skill db s).rows.map id := List.map_congr_left hid
    _ = (upsert_skill db s).rows := List.map_id _

/- ### Helper lemmas: ranking and sync -/

lemma mem_insertRanked {scoreOf : Doc → Int} {d y : Doc} (l : List Doc) :
    y ∈ insertRanked scoreOf d l ↔ (y = d ∨ y ∈ l) := by
  induction l with
  | nil => simp [insertRanked]
  | cons x xs ih =>
    unfold insertRanked
    by_cases hc : scoreOf x < scoreOf d
    · rw [if_pos hc]
      simp
    · rw [if_neg hc]
      simp only [List.mem_cons, ih]
      tauto

lemma mem_rankDocs {scoreOf : Doc → Int} {y : Doc} (l : List Doc) :
    y ∈ rankDocs scoreOf l ↔ y ∈ l := by
  induction l with
  | nil => simp [rankDocs]
  | cons x xs ih =>
    show y ∈ insertRanked scoreOf x (rankDocs scoreOf xs) ↔ _
    rw [mem_insertRanked, ih]
    simp

lemma foldl_syncOneStep_fst (outcome : Registry → Except String Unit)
    (l : List Registry) (acc : List String × List String) :
    (l.foldl (syncOneStep outcome) acc).1 = acc.1 ++ l.map Registry.name := by
  induction l generalizing acc with
  | nil => simp
  | cons reg l ih =>
    simp only [List.foldl_cons, List.map_cons]
    rw [ih]
    unfold syncOneStep
    cases outcome reg <;> simp

/- ### Spec-side definitions for refinement statements -/

/-- Spec-side retrieval stage 1: drop every candidate whose `(registry, slug)`
record is absent from the Store. -/
def dropVanished (db : DB) (rs : List SearchResult) : List (SearchResult × Skill) :=
  rs.filterMap (fun r => (get_skill db r.registry r.slug).map (fun s => (r, s)))

/-- Spec-side retrieval stage 2: attach a quality score (slug lookup first,
name fallback, defaulting to 0). -/
def attachQuality (qs : QMap) (p : SearchResult × Skill) : Enriched :=
  { slug := p.2.slug
    name := p.2.name
    registry := p.2.registry
    description := p.2.description
    github_url := p.2.github_url
    stars := p.2.stars
    trusted := p.2.trusted
    search_score := p.1.score
    quality_score := retrievalQuality qs p.2.registry p.2.slug p.2.name }

/-- The claim's description of the retrieval algorithm: request `4×N`
candidates, drop vanished records, attach quality scores, apply the
trusted-only filter, then the minimum-score filter, then truncate to `N`. -/
def retrieveSpec (idx : String → Nat → Option String → List SearchResult)
    (db : DB) (qs : QMap) (query : String) (limit : Nat)
    (registry : Option String) (trustedOnly : Bool) (minScore : Int) :
    List Enriched :=
  ((((dropVanished db (idx query (4 * limit) registry)).map (attachQuality qs)).filter
      (fun e => !trustedOnly || e.trusted)).filter
      (fun e => minScore ≤ e.quality_score)).take limit

/-- The spec's description of the registry-filtered query: the conjunction of
the free-text predicate with an exact-match predicate on `registry`. -/
def conjQuery (textq : Doc → Bool) (reg : String) (d : Doc) : Bool :=
  textq d && d.registry == reg

/- ### Claim theorems -/

/-- C1: for every query, requested count, registry filter, trusted-only flag
and minimum score, the Search command requests `4×N` candidates from the
index, drops candidates whose `(registry, slug)` record is absent from the
Store, attaches a quality score (slug lookup first, name fallback, default 0),
applies the trusted-only filter, then the minimum-score filter, and truncates
to at most `N` results, in that order. -/
theorem C1_retrieval_pipeline
    (idx : String → Nat → Option String → List SearchResult)
    (db : DB) (qs : QMap) (query : String) (limit : Nat)
    (registry : Option String) (trustedOnly : Bool) (minScore : Int) :
    searchCommand idx db qs query limit registry trustedOnly minScore =
      retrieveSpec idx db qs query limit registry trustedOnly minScore ∧
    (searchCommand idx db qs query limit registry trustedOnly minScore).length ≤ limit := by
  have hfun : (fun x : SearchResult => Option.map (attachQuality qs)
      (Option.map (fun s => (x, s)) (get_skill db x.registry x.slug))) = enrich db qs := by
    funext r
    unfold enrich attachQuality
    cases get_skill db r.registry r.slug <;> rfl
  have hmain : searchCommand idx db qs query limit registry trustedOnly minScore =
      retrieveSpec idx db qs query limit registry trustedOnly minScore := by
    unfold retrieveSpec dropVanished
    rw [List.map_filterMap, hfun, Nat.mul_comm 4 limit]
    rfl
  refine ⟨hmain, ?_⟩
  rw [hmain]
  unfold retrieveSpec
  rw [List.length_take]
  exact min_le_left _ _

/-- C2: `upsert_skill` inserts a new row when no row with key
`(s.registry, s.slug)` exists, and otherwise replaces all mutable fields of
the existing row with `s`'s values while leaving the key (and rowid)
unchanged; exactly one row carries the key afterwards, and upserting an
identical Skill twice leaves the rows unchanged. -/
theorem C2_upsert_contract (db : DB) (s : Skill) (hu : keysUnique db.rows) :
    (db.rows.any (fun r => keyMatch r s.registry s.slug) = false →
      (upsert_skill db s).rows = db.rows ++ [{ s with id := db.nextId }]) ∧
    (db.rows.any (fun r => keyMatch r s.registry s.slug) = true →
      ∃ r0 r1, get_skill db s.registry s.slug = some r0 ∧
        get_skill (upsert_skill db s) s.registry s.slug = some r1 ∧
        r1.registry = r0.registry ∧ r1.slug = r0.slug ∧ r1.id = r0.id ∧
        mutFieldsEq r1 s) ∧
    (upsert_skill db s).rows.countP (fun r => keyMatch r s.registry s.slug) = 1 ∧
    (upsert_skill (upsert_skill db s) s).rows = (upsert_skill db s).rows := by
  refine ⟨?_, ?_, upsert_countP_one s hu, upsert_idem db s⟩
  · intro hany
    rw [upsert_rows, if_neg (by simp [hany])]
  · intro hany
    have hex : ∃ r ∈ db.rows, keyMatch r s.registry s.slug = true :=
      List.any_eq_true.mp hany
    obtain ⟨r, hr, hkm⟩ := hex
    have hsome : (db.rows.find? (fun r => keyMatch r s.registry s.slug)).isSome := by
      rw [List.find?_isSome]
      exact ⟨r, hr, hkm⟩
    obtain ⟨r0, hr0⟩ := Option.isSome_iff_exists.mp hsome
    have hfound : keyMatch r0 s.registry s.slug = true := by
      simpa using List.find?_some hr0
    have hmap : get_skill (upsert_skill db s) s.registry s.slug =
        (db.rows.find? (fun r => keyMatch r s.registry s.slug)).map (updIf s) := by
      unfold get_skill
      rw [upsert_rows, if_pos hany]
      exact find?_map_pres (fun r => keyMatch_updIf s r s.registry s.slug)
    refine ⟨r0, updIf s r0, hr0, ?_, ?_, ?_, ?_, ?_⟩
    · rw [hmap, hr0]
      rfl
    · exact updIf_registry s r0
    · exact updIf_slug s r0
    · exact updIf_id s r0
    · unfold updIf
      rw [if_pos hfound]
      exact mutFieldsEq_replaceMut r0 s

/-- C5: in every reachable Store state in which some slug exists under two or
more registries, the slug-only lookup `get_skill_by_slug` returns exactly one
matching row, chosen deterministically as the matching row with the lowest
rowid (the order in which SQLite's `idx_skills_slug` index serves the
`LIMIT 1` query). -/
theorem C5_slug_lookup_deterministic (ops : List Op) (slug : String)
    (h : ∃ r1 ∈ (applyOps ops).rows, ∃ r2 ∈ (applyOps ops).rows,
      r1.slug = slug ∧ r2.slug = slug ∧ r1.registry ≠ r2.registry) :
    ∃ row, get_skill_by_slug (applyOps ops) slug = some row ∧ row.slug = slug ∧
      ∀ r ∈ (applyOps ops).rows, r.slug = slug → row.id ≤ r.id := by
  have hsort := (dbInv_applyOps ops).2.1
  obtain ⟨r1, hr1, r2, hr2, hs1, hs2, hne⟩ := h
  have hex : ∃ r ∈ (applyOps ops).rows, (r.slug == slug) = true :=
    ⟨r1, hr1, by simp [hs1]⟩
  obtain ⟨row, hf, hp, hmin⟩ := find?_first_min_id hsort hex
  refine ⟨row, hf, by simpa using hp, ?_⟩
  intro r hr hsl
  exact hmin r hr (by simp [hsl])

/-- C6: a `(registry, slug)` pair (with record name `name`) that matches no
quality-dataset entry under either the normalized slug key or the normalized
name key resolves, in the lookup used by retrieval, to the concrete score `0`
rather than an error or an absent value. -/
theorem C6_quality_default_zero (entries : List QualityEntry)
    (registry slug name : String)
    (h1 : ∀ e ∈ entries, producesKey e (registry ++ ":" ++ normalize_slug slug) = false)
    (h2 : ∀ e ∈ entries, producesKey e (registry ++ ":" ++ normalize_slug name) = false) :
    retrievalQuality (loadScores entries) registry slug name = 0 := by
  have hs : loadScores entries (registry ++ ":" ++ normalize_slug slug) = none :=
    foldl_loadStep_no_producer entries qempty h1
  have hn : loadScores entries (registry ++ ":" ++ normalize_slug name) = none :=
    foldl_loadStep_no_producer entries qempty h2
  unfold retrievalQuality get_score
  rw [hs, hn]
  rfl

/-- C7: every result of a registry-filtered index search carries a `registry`
field equal to the filter value, and the evaluated query is exactly the
conjunction of the free-text predicate with the exact-match registry
predicate. -/
theorem C7_registry_filter
    : (∀ (docs : List Doc) (textq : Doc → Bool) (scoreOf : Doc → Int)
        (limit : Nat) (reg : String) (res : SearchResult),
        res ∈ searchEval docs textq scoreOf limit (some reg) → res.registry = reg) ∧
      (∀ (textq : Doc → Bool) (reg : String) (d : Doc),
        finalQuery textq (some reg) d = conjQuery textq reg d) := by
  constructor
  · intro docs textq scoreOf limit reg res hres
    unfold searchEval at hres
    obtain ⟨d, hd, hres⟩ := List.mem_map.mp hres
    have hd2 : d ∈ rankDocs scoreOf (docs.filter (finalQuery textq (some reg))) :=
      List.mem_of_mem_take hd
    have hd3 : d ∈ docs.filter (finalQuery textq (some reg)) :=
      (mem_rankDocs _).mp hd2
    have hq : finalQuery textq (some reg) d = true := (List.mem_filter.mp hd3).2
    unfold finalQuery termMatchRegistry at hq
    have hreg : d.registry = reg := by
      have := (Bool.and_eq_true _ _).mp hq
      exact beq_iff_eq.mp this.2
    rw [← hres]
    exact hreg
  · intro textq reg d
    rfl

/-- C8: for every assignment of per-registry sync outcomes and any outcome of
the stars fetch, `sync_all_registries` attempts every configured registry in
order and returns `Ok` even when some or all registries fail. -/
theorem C8_sync_failure_isolation (outcome : Registry → Except String Unit)
    (starsResult : Except String Unit) :
    ∃ warns, sync_all_registries (Except.ok ()) outcome starsResult =
      Except.ok (REGISTRIES.map Registry.name, warns) := by
  unfold sync_all_registries
  refine ⟨?_, ?_⟩
  · exact
      match starsResult with
      | Except.ok _ => (REGISTRIES.foldl (syncOneStep outcome) ([], [])).2
      | Except.error e =>
        (REGISTRIES.foldl (syncOneStep outcome) ([], [])).2 ++ ["clawdhub stars: " ++ e]
  · have hfst := foldl_syncOneStep_fst outcome REGISTRIES ([], [])
    simp only [List.nil_append] at hfst
    cases starsResult <;> simp [hfst]

/-- C9: in every Store state reachable from the empty store by sequences of
`upsert_skill`, `update_stars`, `set_last_sync` and `clear_sync_state`, no two
Skill rows share the same `(registry, slug)` pair. -/
theorem C9_key_uniqueness_invariant (ops : List Op) :
    keysUnique (applyOps ops).rows :=
  (dbInv_applyOps ops).1

/-- C10: when two quality-dataset entries produce the same normalized lookup
key, the entry appearing later in the dataset overwrites the earlier one, so
`get_score` for that key returns the later entry's score; and an entry whose
url ends in `'/'` is keyed by the last non-empty path segment of the url. -/
theorem C10_later_entry_wins :
    (∀ (as : List QualityEntry) (e2 : QualityEntry) (bs : List QualityEntry)
        (registry slug : String),
      producesKey e2 (registry ++ ":" ++ normalize_slug slug) = true →
      (∃ e1 ∈ as, producesKey e1 (registry ++ ":" ++ normalize_slug slug) = true) →
      (∀ e ∈ bs, producesKey e (registry ++ ":" ++ normalize_slug slug) = false) →
      get_score (loadScores (as ++ e2 :: bs)) registry slug = some e2.score) ∧
    (∀ (pre s : List Char), s ≠ [] → (∀ x ∈ s, x ≠ '/') →
      extract_slug_from_url ⟨pre ++ '/' :: (s ++ ['/'])⟩ = ⟨s⟩) := by
  constructor
  · intro as e2 bs registry slug hkey _ hlater
    unfold get_score loadScores
    rw [List.foldl_append, List.foldl_cons]
    rw [foldl_loadStep_no_producer bs _ hlater]
    rw [loadStep_lookup, if_pos hkey]
    rfl
  · intro pre s hne hnosep
    unfold extract_slug_from_url
    have hsplit : splitOnChar '/' (pre ++ '/' :: (s ++ ['/'])) =
        splitOnChar '/' pre ++ (s :: [[]] : List (List Char)) := by
      rw [splitOnChar_append_cons]
      congr 1
      have : (s ++ ['/'] : List Char) = s ++ '/' :: [] := rfl
      rw [this, splitOnChar_append_cons, splitOnChar_no_sep hnosep]
      rfl
    show String.mk ((((splitOnChar '/' (pre ++ '/' :: (s ++ ['/']))).reverse).find?
      (fun t => !t.isEmpty)).getD []) = String.mk s
    rw [hsplit, List.reverse_append]
    have hrev : ((s :: [[]] : List (List Char)).reverse) = ([[], s] : List (List Char)) := rfl
    rw [hrev]
    have hfind : ((([[], s] : List (List Char)) ++ (splitOnChar '/' pre).reverse).find?
        (fun t => !t.isEmpty)) = some s := by
      rw [List.cons_append, List.find?_cons]
      simp only [List.isEmpty_nil, Bool.not_true]
      rw [List.cons_append, List.find?_cons]
      have : (!s.isEmpty) = true := by
        cases s with
        | nil => exact absurd rfl hne
        | cons a t => rfl
      simp [this]
    rw [hfind]
    rfl

/- ### Witness fixtures -/

def wSkillA : Skill :=
  { id := 0, slug := "calendar", name := "Calendar", registry := "clawdhub"
    description := "d", skill_md := "m", github_url := "u", version := none
    stars := 5, trusted := false, updated_at := 1 }

def wSkillB : Skill :=
  { id := 0, slug := "calendar", name := "Calendar 2", registry := "anthropic"
    description := "d2", skill_md := "m2", github_url := "u2", version := some "1"
    stars := 50, trusted := true, updated_at := 2 }

def wOps : List Op := [Op.upsert wSkillA, Op.upsert wSkillB]

def wEntry : QualityEntry :=
  { name := "My-Skill", registry := "clawdhub", score := 95, stars := 10
    rationale := "r", url := "https://example.com/x/my-skill" }

def wEntry2 : QualityEntry :=
  { name := "My-Skill", registry := "clawdhub", score := 40, stars := 3
    rationale := "r2", url := "https://example.com/y/My-Skill/" }

def wDoc1 : Doc :=
  { slug := "s1", name := "n1", description := "d1", registry := "anthropic"
    content := "c1" }

def wDoc2 : Doc :=
  { slug := "s2", name := "n2", description := "d2", registry := "clawdhub"
    content := "c2" }

def wRes1 : SearchResult :=
  { slug := "s1", name := "n1", description := "d1", registry := "anthropic"
    score := 0 }

/- ### Witnesses -/

/-- Witness for C2 at a concrete store and skill. -/
theorem C2_upsert_contract_witness :
    keysUnique (upsert_skill emptyDB wSkillA).rows ∧
    (upsert_skill (upsert_skill (upsert_skill emptyDB wSkillA) wSkillA) wSkillA).rows =
      (upsert_skill (upsert_skill emptyDB wSkillA) wSkillA).rows := by
  have h : keysUnique (upsert_skill emptyDB wSkillA).rows := by
    unfold keysUnique
    decide
  exact ⟨h, (C2_upsert_contract (upsert_skill emptyDB wSkillA) wSkillA h).2.2.2⟩

/-- Witness for C5: the slug `calendar` exists under two registries and the
lookup returns the lowest-rowid match. -/
theorem C5_slug_lookup_deterministic_witness :
    (∃ r1 ∈ (applyOps wOps).rows, ∃ r2 ∈ (applyOps wOps).rows,
      r1.slug = "calendar" ∧ r2.slug = "calendar" ∧ r1.registry ≠ r2.registry) ∧
    (∃ row, get_skill_by_slug (applyOps wOps) "calendar" = some row ∧
      row.slug = "calendar" ∧
      ∀ r ∈ (applyOps wOps).rows, r.slug = "calendar" → row.id ≤ r.id) := by
  have h : ∃ r1 ∈ (applyOps wOps).rows, ∃ r2 ∈ (applyOps wOps).rows,
      r1.slug = "calendar" ∧ r2.slug = "calendar" ∧ r1.registry ≠ r2.registry := by
    decide
  exact ⟨h, C5_slug_lookup_deterministic wOps "calendar" h⟩

/-- Witness for C6 at a concrete dataset and unmatched key. -/
theorem C6_quality_default_zero_witness :
    (∀ e ∈ [wEntry], producesKey e ("clawdhub" ++ ":" ++ normalize_slug "other") = false) ∧
    (∀ e ∈ [wEntry], producesKey e ("clawdhub" ++ ":" ++ normalize_slug "othern") = false) ∧
    retrievalQuality (loadScores [wEntry]) "clawdhub" "other" "othern" = 0 := by
  refine ⟨by decide, by decide, ?_⟩
  exact C6_quality_default_zero [wEntry] "clawdhub" "other" "othern" (by decide) (by decide)

/-- Witness for C7 at a concrete two-registry index. -/
theorem C7_registry_filter_witness :
    wRes1 ∈ searchEval [wDoc1, wDoc2] (fun _ => true) (fun _ => 0) 10 (some "anthropic") ∧
    wRes1.registry = "anthropic" := by
  have hmem : wRes1 ∈ searchEval [wDoc1, wDoc2] (fun _ => true) (fun _ => 0) 10
      (some "anthropic") := by decide
  exact ⟨hmem,
    C7_registry_filter.1 [wDoc1, wDoc2] (fun _ => true) (fun _ => 0) 10 "anthropic" wRes1 hmem⟩

/-- Witness for C10: two colliding entries, with the later one winning, and a
trailing-slash url keyed by its last non-empty segment. -/
theorem C10_later_entry_wins_witness :
    producesKey wEntry2 ("clawdhub" ++ ":" ++ normalize_slug "my-skill") = true ∧
    get_score (loadScores [wEntry, wEntry2]) "clawdhub" "my-skill" = some 40 ∧
    extract_slug_from_url ⟨"ab".data ++ '/' :: ("seg".data ++ ['/'])⟩ = ⟨"seg".data⟩ := by
  refine ⟨by decide, ?_, ?_⟩
  · exact C10_later_entry_wins.1 [wEntry] wEntry2 [] "clawdhub" "my-skill"
      (by decide) (by decide) (by decide)
  · exact C10_later_entry_wins.2 "ab".data "seg".data (by decide) (by decide)

/- ### C3: frontmatter fallback -/

/-- The C3 counterexample input: a frontmatter block with a `description` but
no `name`, followed by a heading. -/
def cexC3 : List Char := "---\ndescription: hello\n---\n# Head".data

/-- C3 counterexample: on `cexC3` the parsed `name` is empty (so the claim's
"name empty after parsing" case applies and the heading fallback fires), yet
the returned `description` is `"hello"`, not the empty string demanded by the
claim. -/
theorem C3_claim_counterexample :
    (parseFMBlock cexC3).1 = [] ∧
    parse_skill_frontmatter cexC3 = ("Head".data, "hello".data, none) ∧
    "hello".data ≠ ([] : List Char) := by decide

/-- C3 (amended): when no frontmatter block is found,
`parse_skill_frontmatter` returns the heading fallback as `name` (the trimmed
text after `"# "` of the first such line, empty if none), an empty
`description` and no version; when a block is found but the parsed `name` is
empty, the heading fallback is used for `name` while `description` and
`version` keep the values parsed from the block; the empty input yields
`("", "", none)`. -/
theorem C3_frontmatter_fallback :
    (∀ content : List Char, hasBlockB content = false →
      parse_skill_frontmatter content = (firstHeading content, [], none)) ∧
    (∀ content : List Char, (parseFMBlock content).1 = [] →
      parse_skill_frontmatter content =
        (firstHeading content, (parseFMBlock content).2.1, (parseFMBlock content).2.2)) ∧
    parse_skill_frontmatter [] = ([], [], none) := by
  have hblock : ∀ content : List Char, hasBlockB content = false →
      parseFMBlock content = ([], [], none) := by
    intro content h
    unfold hasBlockB at h
    unfold parseFMBlock
    by_cases hp : "---".data.isPrefixOf content = true
    · rw [hp] at h
      simp only [Bool.true_and] at h
      rw [if_pos hp]
      cases hf : findSubstr (content.drop 3) "---".data with
      | none => rfl
      | some i => rw [hf] at h; simp at h
    · rw [if_neg hp]
  have hfall : ∀ content : List Char, (parseFMBlock content).1 = [] →
      parse_skill_frontmatter content =
        (firstHeading content, (parseFMBlock content).2.1, (parseFMBlock content).2.2) := by
    intro content h
    show (if (parseFMBlock content).1 = [] then _ else _) = _
    rw [if_pos h]
  refine ⟨?_, hfall, by decide⟩
  intro content h
  have hb := hblock content h
  rw [hfall content (by rw [hb]), hb]

/-- Witness for C3 at a concrete no-block input. -/
theorem C3_frontmatter_fallback_witness :
    hasBlockB ("Some text before\n# The Heading\nMore content".data) = false ∧
    parse_skill_frontmatter ("Some text before\n# The Heading\nMore content".data) =
      (firstHeading ("Some text before\n# The Heading\nMore content".data), [], none) ∧
    firstHeading ("Some text before\n# The Heading\nMore content".data) =
      "The Heading".data := by
  refine ⟨by decide, ?_, by decide⟩
  exact C3_frontmatter_fallback.1 ("Some text before\n# The Heading\nMore content".data)
    (by decide)

/- ### C4: quote stripping -/

lemma getLast?_mem {l : List Char} {a : Char} (h : l.getLast? = some a) : a ∈ l := by
  induction l with
  | nil => cases h
  | cons x t ih =>
    cases t with
    | nil =>
      simp only [List.getLast?_singleton, Option.some.injEq] at h
      simp [h]
    | cons y u =>
      rw [List.getLast?_cons_cons] at h
      exact List.mem_cons_of_mem x (ih h)

lemma dropPre_append (p rest : List Char) : dropPre p (p ++ rest) = some rest := by
  unfold dropPre
  rw [if_pos (isPrefixOf_append_self p rest)]
  rw [List.drop_left]

/-- The manifest shape used for the C4 quote-stripping analysis:
a frontmatter block whose single line is `name: ` followed by `q`. -/
def mkNM (q : List Char) : List Char :=
  "---".data ++ ('\n' :: ("name: ".data ++ q ++ ('\n' :: "---".data)))

/-- `q` contains none of the characters that interact with block or line
structure. -/
def plainChars (w : List Char) : Bool :=
  w.all (fun c => !(c = '\n' || c = '\r' || c = '-'))

def edgeOk (o : Option Char) : Bool :=
  match o with
  | some c => !(c = '"' || c = '\'' || wsChar c)
  | none => true

/-- The inner value has no structural characters and neither starts nor ends
with a quote character or whitespace. -/
def okCore (w : List Char) : Bool :=
  plainChars w && edgeOk w.head? && edgeOk w.getLast?

lemma plainChars_mem {w : List Char} (h : plainChars w = true) :
    ∀ c ∈ w, c ≠ '\n' ∧ c ≠ '\r' ∧ c ≠ '-' := by
  intro c hc
  have := List.all_eq_true.mp h c hc
  simp only [Bool.not_eq_true', Bool.or_eq_false_iff, decide_eq_false_iff_not] at this
  exact ⟨this.1.1, this.1.2, this.2⟩

lemma edgeOk_some {o : Option Char} {c : Char} (h : edgeOk o = true)
    (hc : o = some c) : c ≠ '"' ∧ c ≠ '\'' ∧ wsChar c = false := by
  subst hc
  simp only [edgeOk, Bool.not_eq_true', Bool.or_eq_false_iff,
    decide_eq_false_iff_not] at h
  exact ⟨h.1.1, h.1.2, h.2⟩

/-- The key computation: `parse_skill_frontmatter` on `mkNM q` returns exactly
the processed value `stripVal (' ' :: q)` as `name`, with empty description
and no version. -/
lemma parse_mkNM (q : List Char) (hne : q ≠ [])
    (hq : plainChars q = true)
    (hl : ∀ c, q.getLast? = some c → wsChar c = false) :
    parse_skill_frontmatter (mkNM q) = (stripVal (' ' :: q), [], none) := by
  have hqchars := plainChars_mem hq
  obtain ⟨qc, hqc⟩ : ∃ c, q.getLast? = some c := by
    cases hq' : q.getLast? with
    | none => exact absurd (List.getLast?_eq_none_iff.mp hq') hne
    | some c => exact ⟨c, rfl⟩
  have hqcmem : qc ∈ q := getLast?_mem hqc
  -- the name line
  set nl : List Char := "name: ".data ++ q with hnl_def
  have hnl_last : nl.getLast? = some qc := by
    rw [hnl_def, List.getLast?_append, hqc]
    rfl
  -- A: block extraction
  have hpre : ("---".data : List Char).isPrefixOf (mkNM q) = true :=
    isPrefixOf_append_self _ _
  have hdrop : (mkNM q).drop 3 =
      '\n' :: ("name: ".data ++ q ++ ('\n' :: "---".data)) := by
    unfold mkNM
    have h3 : ("---".data : List Char).length = 3 := rfl
    rw [← h3, List.drop_left]
  have hshape : ('\n' :: ("name: ".data ++ q ++ ('\n' :: "---".data)) : List Char) =
      ('\n' :: ("name: ".data ++ q ++ ['\n'])) ++ ("---".data ++ []) := by
    simp [List.append_assoc]
  have hnodash : ∀ x ∈ ('\n' :: ("name: ".data ++ q ++ ['\n']) : List Char),
      ("---".data : List Char).head? ≠ some x := by
    intro x hx
    have hxd : x ≠ '-' := by
      rcases List.mem_cons.mp hx with rfl | hm
      · decide
      · rcases List.mem_append.mp hm with hm1 | hm2
        · rcases List.mem_append.mp hm1 with hma | hmq
          · have hlist : ∀ y ∈ ("name: ".data : List Char), y ≠ '-' := by decide
            exact hlist x hma
          · exact (hqchars x hmq).2.2
        · have hxn : x = '\n' := by simpa using hm2
          subst hxn
          decide
    intro hcon
    rw [show (("---".data : List Char)).head? = some '-' from rfl] at hcon
    exact hxd (Option.some.inj hcon).symm
  have hfind : findSubstr ((mkNM q).drop 3) "---".data =
      some ('\n' :: ("name: ".data ++ q ++ ['\n']) : List Char).length := by
    rw [hdrop, hshape]
    exact findSubstr_boundary _ _ _ (by decide) hnodash
  have htake : ((mkNM q).drop 3).take
      ('\n' :: ("name: ".data ++ q ++ ['\n']) : List Char).length =
      '\n' :: ("name: ".data ++ q ++ ['\n']) := by
    rw [hdrop, hshape]
    exact List.take_left _ _
  have hblockeq : parseFMBlock (mkNM q) =
      parseFMLines (linesOf ('\n' :: ("name: ".data ++ q ++ ['\n']))) := by
    unfold parseFMBlock
    rw [if_pos hpre, hfind]
    show parseFMLines (linesOf (((mkNM q).drop 3).take
      ('\n' :: ("name: ".data ++ q ++ ['\n']) : List Char).length)) = _
    rw [htake]
  -- B: lines of the block
  have hnq : ∀ x ∈ q, x ≠ '\n' := fun x hx => (hqchars x hx).1
  have hnn : ∀ x ∈ ("name: ".data ++ q : List Char), x ≠ '\n' := by
    intro x hx
    rcases List.mem_append.mp hx with hm | hm
    · have hlist : ∀ y ∈ ("name: ".data : List Char), y ≠ '\n' := by decide
      exact hlist x hm
    · exact hnq x hm
  have hsplit : splitOnChar '\n' ('\n' :: ("name: ".data ++ q ++ ['\n'])) =
      [[], "name: ".data ++ q, []] := by
    rw [splitOnChar_cons]
    rw [if_pos (show ('\n' : Char) = '\n' from rfl)]
    have hassoc : ("name: ".data ++ q ++ ['\n'] : List Char) =
        ("name: ".data ++ q) ++ '\n' :: [] := rfl
    rw [hassoc, splitOnChar_append_cons, splitOnChar_no_sep hnn]
    rfl
  have hcrnl : stripCR ("name: ".data ++ q) = "name: ".data ++ q := by
    unfold stripCR
    rw [if_neg ?hcon]
    case hcon =>
      intro hcon
      rw [List.getLast?_append, hqc] at hcon
      have : qc = '\r' := by
        simpa using hcon
      exact (hqchars qc hqcmem).2.1 this
  have hlines : linesOf ('\n' :: ("name: ".data ++ q ++ ['\n'])) =
      [[], "name: ".data ++ q] := by
    unfold linesOf
    rw [hsplit]
    show (if ([[], "name: ".data ++ q, []] : List (List Char)).getLast? = some []
        then ([[], "name: ".data ++ q, []] : List (List Char)).dropLast
        else [[], "name: ".data ++ q, []]).map stripCR = _
    rw [if_pos (show ([[], "name: ".data ++ q, []] :
      List (List Char)).getLast? = some [] from rfl)]
    show List.map stripCR [[], "name: ".data ++ q] = _
    simp only [List.map_cons, List.map_nil, hcrnl]
    rfl
  -- C: evaluating the line loop
  have hheadnl : ∀ c, ("name: ".data ++ q : List Char).head? = some c →
      wsChar c = false := by
    intro c hc
    have : c = 'n' := by
      rw [show (("name: ".data ++ q : List Char)).head? = some 'n' from rfl] at hc
      exact (Option.some.inj hc).symm
    subst this
    decide
  have hlastnl : ∀ c, ("name: ".data ++ q : List Char).getLast? = some c →
      wsChar c = false := by
    intro c hc
    rw [List.getLast?_append, hqc] at hc
    have : qc = c := by simpa using hc
    subst this
    exact hl qc hqc
  have htrimnl : trimL ("name: ".data ++ q) = "name: ".data ++ q :=
    trimBy_eq_self hheadnl hlastnl
  have hnameline : ("name: ".data ++ q : List Char) = "name:".data ++ (' ' :: q) := by
    have h6 : ("name: ".data : List Char) = "name:".data ++ [' '] := by decide
    rw [h6, List.append_assoc]
    rfl
  have hstep : parseFMLines ["name: ".data ++ q] = (stripVal (' ' :: q), [], none) := by
    unfold parseFMLines
    rw [List.foldl_cons, List.foldl_nil]
    show (match dropPre "name:".data (trimL ("name: ".data ++ q)) with
      | some v => (stripVal v, ([] : List Char), (none : Option (List Char)))
      | none =>
        match dropPre "description:".data (trimL ("name: ".data ++ q)) with
        | some v => ([], stripVal v, none)
        | none =>
          match dropPre "version:".data (trimL ("name: ".data ++ q)) with
          | some v => ([], [], some (stripVal v))
          | none => ([], [], none)) = _
    rw [htrimnl, hnameline, dropPre_append]
  have hfm : parseFMBlock (mkNM q) = (stripVal (' ' :: q), [], none) := by
    rw [hblockeq, hlines]
    rw [show parseFMLines [[], "name: ".data ++ q] =
      parseFMLines ["name: ".data ++ q] from rfl]
    exact hstep
  -- D: the heading fallback yields nothing on this manifest
  have hfh : firstHeading (mkNM q) = [] := by
    unfold firstHeading
    have hsplitfull : splitOnChar '\n' (mkNM q) =
        ["---".data, "name: ".data ++ q, "---".data] := by
      unfold mkNM
      rw [splitOnChar_append_cons '\n' "---".data]
      have hassoc : ("name: ".data ++ q ++ ('\n' :: "---".data) : List Char) =
          ("name: ".data ++ q) ++ '\n' :: "---".data := rfl
      rw [hassoc, splitOnChar_append_cons, splitOnChar_no_sep hnn]
      rw [splitOnChar_no_sep (by decide)]
      rfl
    have hlinesfull : linesOf (mkNM q) =
        ["---".data, "name: ".data ++ q, "---".data] := by
      unfold linesOf
      rw [hsplitfull]
      show (if (["---".data, "name: ".data ++ q, "---".data] :
            List (List Char)).getLast? = some []
          then (["---".data, "name: ".data ++ q, "---".data] :
            List (List Char)).dropLast
          else ["---".data, "name: ".data ++ q, "---".data]).map stripCR = _
      rw [if_neg (show ¬ (["---".data, "name: ".data ++ q, "---".data] :
        List (List Char)).getLast? = some [] from fun hcon => by
          rw [show ((["---".data, "name: ".data ++ q, "---".data] :
            List (List Char)).getLast?) = some "---".data from rfl] at hcon
          exact absurd (Option.some.inj hcon) (by decide))]
      simp only [List.map_cons, List.map_nil, hcrnl]
      rfl
    rw [hlinesfull]
    have hnb1 : dropPre "# ".data "---".data = none := by decide
    have hnb2 : dropPre "# ".data ("name: ".data ++ q) = none := by
      unfold dropPre
      rw [if_neg ?hpf]
      case hpf =>
        intro hcon
        rw [show ("name: ".data ++ q : List Char) = 'n' :: ("ame: ".data ++ q)
          from rfl] at hcon
        rw [show ("# ".data : List Char) = '#' :: [' '] from rfl] at hcon
        rw [List.isPrefixOf_cons₂] at hcon
        simp at hcon
    rw [List.findSome?_cons, hnb1, List.findSome?_cons, hnb2,
      List.findSome?_cons, hnb1]
    rfl
  -- E: assembling the parser
  show (if (parseFMBlock (mkNM q)).1 = [] then
      (firstHeading (mkNM q), (parseFMBlock (mkNM q)).2.1, (parseFMBlock (mkNM q)).2.2)
    else parseFMBlock (mkNM q)) = (stripVal (' ' :: q), [], none)
  rw [hfm, hfh]
  by_cases hs : stripVal (' ' :: q) = []
  · rw [if_pos (by rw [hs])]
    rw [hs]
  · rw [if_neg (by simpa using hs)]

lemma trimMatchesL_id {c : Char} {w : List Char}
    (hh : ∀ x, w.head? = some x → x ≠ c)
    (hl : ∀ x, w.getLast? = some x → x ≠ c) :
    trimMatchesL c w = w :=
  trimBy_eq_self (fun x hx => beq_eq_false_iff_ne.mpr (hh x hx))
    (fun x hx => beq_eq_false_iff_ne.mpr (hl x hx))

lemma trimMatchesL_cons (c : Char) (w : List Char) :
    trimMatchesL c (c :: w) = trimMatchesL c w := trimBy_cons_pos _ (by simp)

lemma trimMatchesL_concat (c : Char) (w : List Char) :
    trimMatchesL c (w ++ [c]) = trimMatchesL c w := trimBy_concat_pos _ (by simp)

lemma getLast?_cons_append_one (a c : Char) (w : List Char) :
    (a :: (w ++ [c]) : List Char).getLast? = some c := by
  rw [show (a :: (w ++ [c]) : List Char) = (a :: w) ++ [c] from rfl]
  exact List.getLast?_concat _

lemma okCore_parts {w : List Char} (h : okCore w = true) :
    plainChars w = true ∧
    (∀ x, w.head? = some x → x ≠ '"' ∧ x ≠ '\'' ∧ wsChar x = false) ∧
    (∀ x, w.getLast? = some x → x ≠ '"' ∧ x ≠ '\'' ∧ wsChar x = false) := by
  unfold okCore at h
  rw [Bool.and_eq_true, Bool.and_eq_true] at h
  obtain ⟨⟨hp, hhd⟩, hlt⟩ := h
  exact ⟨hp, fun x hx => edgeOk_some hhd hx, fun x hx => edgeOk_some hlt hx⟩

lemma stripVal_cons_space (q : List Char)
    (hh : ∀ c, q.head? = some c → wsChar c = false)
    (hl : ∀ c, q.getLast? = some c → wsChar c = false) :
    stripVal (' ' :: q) = trimMatchesL '\'' (trimMatchesL '"' q) := by
  unfold stripVal
  rw [show trimL (' ' :: q) = q from by
    unfold trimL
    rw [trimBy_cons_pos _ (by decide)]
    exact trimBy_eq_self hh hl]

/-- The stripping rule stated by the claim: remove exactly one layer of
matching surrounding quote characters, nothing else. -/
def stripOneLayer (v : List Char) : List Char :=
  match v with
  | [] => []
  | c :: rest =>
    if (c = '"' ∨ c = '\'') ∧ rest.getLast? = some c then rest.dropLast
    else c :: rest

/-- The C4 counterexample input: `name: ""x""`. -/
def cexC4 : List Char := "---\nname: \"\"x\"\"\n---".data

/-- C4 counterexample: on the doubled-quote value `""x""` the code produces
`x`, whereas the claim's one-layer rule keeps the inner pair (`"x"`). -/
theorem C4_claim_counterexample :
    (parse_skill_frontmatter cexC4).1 = "x".data ∧
    stripOneLayer (trimL ("\"\"x\"\"".data)) = "\"x\"".data ∧
    (parse_skill_frontmatter cexC4).1 ≠ stripOneLayer (trimL ("\"\"x\"\"".data)) := by
  decide

/-- C4 (amended): for a frontmatter `name: value` line the parser strips from
the trimmed value every leading and trailing double-quote character and then
every leading and trailing single-quote character — so a value wrapped in one
pair of matching quotes (double or single) loses that pair, a doubled-quote
value `""w""` loses both pairs, and unpaired or mismatched quote characters at
the ends of the value are removed as well. -/
theorem C4_quote_stripping (w : List Char) (h : okCore w = true) :
    (parse_skill_frontmatter (mkNM ('"' :: (w ++ ['"'])))).1 = w ∧
    (parse_skill_frontmatter (mkNM ('"' :: '"' :: (w ++ ['"', '"'])))).1 = w ∧
    (parse_skill_frontmatter (mkNM ('\'' :: (w ++ ['\''])))).1 = w ∧
    (parse_skill_frontmatter (mkNM ('"' :: w))).1 = w ∧
    (parse_skill_frontmatter (mkNM ('"' :: (w ++ ['\''])))).1 = w := by
  obtain ⟨hpw, hhd, hlt⟩ := okCore_parts h
  have hwid_dq : trimMatchesL '"' w = w :=
    trimMatchesL_id (fun x hx => (hhd x hx).1) (fun x hx => (hlt x hx).1)
  have hwid_sq : trimMatchesL '\'' w = w :=
    trimMatchesL_id (fun x hx => (hhd x hx).2.1) (fun x hx => (hlt x hx).2.1)
  refine ⟨?_, ?_, ?_, ?_, ?_⟩
  -- matching double-quote pair
  · have hplain : plainChars ('"' :: (w ++ ['"'])) = true := by
      unfold plainChars at hpw ⊢
      simp only [List.all_cons, List.all_append, hpw]
      decide
    have hlast : ∀ c, ('"' :: (w ++ ['"']) : List Char).getLast? = some c →
        wsChar c = false := by
      intro c hc
      rw [getLast?_cons_append_one] at hc
      have hcq : c = '"' := (Option.some.inj hc).symm
      subst hcq
      decide
    rw [parse_mkNM _ (by simp) hplain hlast]
    show stripVal (' ' :: ('"' :: (w ++ ['"']))) = w
    rw [stripVal_cons_space _ (fun c hc => by
        have hcq : c = '"' := (Option.some.inj hc).symm
        subst hcq
        decide) hlast]
    rw [trimMatchesL_cons, trimMatchesL_concat, hwid_dq, hwid_sq]
  -- doubled double quotes
  · have hq2eq : ('"' :: '"' :: (w ++ ['"', '"']) : List Char) =
        ('"' :: '"' :: (w ++ ['"'])) ++ ['"'] := by simp
    have hplain : plainChars ('"' :: '"' :: (w ++ ['"', '"'])) = true := by
      unfold plainChars at hpw ⊢
      simp only [List.all_cons, List.all_append, hpw]
      decide
    have hlast : ∀ c, ('"' :: '"' :: (w ++ ['"', '"']) : List Char).getLast? = some c →
        wsChar c = false := by
      intro c hc
      rw [hq2eq, List.getLast?_concat] at hc
      have hcq : c = '"' := (Option.some.inj hc).symm
      subst hcq
      decide
    rw [parse_mkNM _ (by simp) hplain hlast]
    show stripVal (' ' :: ('"' :: '"' :: (w ++ ['"', '"']))) = w
    rw [stripVal_cons_space _ (fun c hc => by
        have hcq : c = '"' := (Option.some.inj hc).symm
        subst hcq
        decide) hlast]
    rw [trimMatchesL_cons, trimMatchesL_cons]
    rw [show (w ++ ['"', '"'] : List Char) = (w ++ ['"']) ++ ['"'] from by simp]
    rw [trimMatchesL_concat, trimMatchesL_concat, hwid_dq, hwid_sq]
  -- matching single-quote pair
  · have hplain : plainChars ('\'' :: (w ++ ['\''])) = true := by
      unfold plainChars at hpw ⊢
      simp only [List.all_cons, List.all_append, hpw]
      decide
    have hlast : ∀ c, ('\'' :: (w ++ ['\'']) : List Char).getLast? = some c →
        wsChar c = false := by
      intro c hc
      rw [getLast?_cons_append_one] at hc
      have hcq : c = '\'' := (Option.some.inj hc).symm
      subst hcq
      decide
    rw [parse_mkNM _ (by simp) hplain hlast]
    show stripVal (' ' :: ('\'' :: (w ++ ['\'']))) = w
    rw [stripVal_cons_space _ (fun c hc => by
        have hcq : c = '\'' := (Option.some.inj hc).symm
        subst hcq
        decide) hlast]
    rw [@trimMatchesL_id '"' _ (fun x hx => by
        have hxq : x = '\'' := (Option.some.inj hx).symm
        subst hxq
        decide)
      (fun x hx => by
        rw [getLast?_cons_append_one] at hx
        have hxq : x = '\'' := (Option.some.inj hx).symm
        subst hxq
        decide)]
    rw [trimMatchesL_cons, trimMatchesL_concat, hwid_sq]
  -- unpaired leading double quote
  · have hplain : plainChars ('"' :: w) = true := by
      unfold plainChars at hpw ⊢
      simp only [List.all_cons, hpw]
      decide
    have hlast : ∀ c, ('"' :: w : List Char).getLast? = some c →
        wsChar c = false := by
      intro c hc
      cases w with
      | nil =>
        have hcq : c = '"' := by simpa using hc.symm
        subst hcq
        decide
      | cons y u =>
        rw [List.getLast?_cons_cons] at hc
        exact (hlt c hc).2.2
    rw [parse_mkNM _ (by simp) hplain hlast]
    show stripVal (' ' :: ('"' :: w)) = w
    rw [stripVal_cons_space _ (fun c hc => by
        have hcq : c = '"' := (Option.some.inj hc).symm
        subst hcq
        decide) hlast]
    rw [trimMatchesL_cons, hwid_dq, hwid_sq]
  -- mismatched quotes
  · have hplain : plainChars ('"' :: (w ++ ['\''])) = true := by
      unfold plainChars at hpw ⊢
      simp only [List.all_cons, List.all_append, hpw]
      decide
    have hlast : ∀ c, ('"' :: (w ++ ['\'']) : List Char).getLast? = some c →
        wsChar c = false := by
      intro c hc
      rw [getLast?_cons_append_one] at hc
      have hcq : c = '\'' := (Option.some.inj hc).symm
      subst hcq
      decide
    rw [parse_mkNM _ (by simp) hplain hlast]
    show stripVal (' ' :: ('"' :: (w ++ ['\'']))) = w
    rw [stripVal_cons_space _ (fun c hc => by
        have hcq : c = '"' := (Option.some.inj hc).symm
        subst hcq
        decide) hlast]
    rw [trimMatchesL_cons]
    rw [@trimMatchesL_id '"' _ (fun x hx => by
        cases w with
        | nil =>
          have hxq : x = '\'' := by simpa using hx.symm
          subst hxq
          decide
        | cons y u =>
          have hxq : x = y := by simpa using hx.symm
          subst hxq
          exact (hhd x rfl).1)
      (fun x hx => by
        rw [List.getLast?_concat] at hx
        have hxq : x = '\'' := (Option.some.inj hx).symm
        subst hxq
        decide)]
    rw [trimMatchesL_concat, hwid_sq]

/-- Witness for C4 at the concrete value `x`. -/
theorem C4_quote_stripping_witness :
    okCore ("x".data) = true ∧
    (parse_skill_frontmatter (mkNM ('"' :: ("x".data ++ ['"'])))).1 = "x".data ∧
    (parse_skill_frontmatter (mkNM ('"' :: '"' :: ("x".data ++ ['"', '"'])))).1 =
      "x".data := by
  refine ⟨by decide, ?_, ?_⟩
  · exact (C4_quote_stripping ("x".data) (by decide)).1
  · exact (C4_quote_stripping ("x".data) (by decide)).2.1

end SkillSearch
